import Mathlib

/-!
Verification of the PDF structure-inference engine.

The engine consumes a linear stream of content primitives (text runs with
font metrics, tables, images) and builds a hierarchical document tree
(sections containing subsections containing content items), maintaining
two attachment pointers (`current_section`, `current_subsection`) during a
single left-to-right pass.  We embed the engine shallowly: the mutable
Python dict tree becomes an immutable Lean tree, and the two pointers
become indices into that tree.  The one place where the original code can
raise (the negative-index fallback `sections[-1]["subsections"][-1]`) is
modelled by returning `Option`.
-/

namespace PDFStruct

/-- A content item stored inside a subsection: plain paragraph text, a
table (caption, headers, rows), or an image descriptor. -/
inductive ContentItem where
  | paragraph (text : String)
  | table (caption : String) (headers : List String) (rows : List (List String))
  | image (description : String) (position : String)
deriving DecidableEq, Repr, Inhabited

/-- A subsection: a title and an ordered list of content items. -/
structure Subsection where
  title : String
  content : List ContentItem
deriving DecidableEq, Repr, Inhabited

/-- A section: a title and an ordered list of subsections. -/
structure Section where
  title : String
  subsections : List Subsection
deriving DecidableEq, Repr, Inhabited

/-- Document metadata kept in the output structure. -/
structure Metadata where
  num_pages : Nat
  author : String
  subject : String
  extraction_date : String
  extraction_method : String
deriving DecidableEq, Repr, Inhabited

/-- The output document tree. -/
structure Document where
  title : String
  metadata : Metadata
  sections : List Section
deriving DecidableEq, Repr, Inhabited

/-- An input content primitive produced by a backend adapter: a text run
carrying font metrics, a table, or an image. -/
inductive Primitive where
  | textRun (text : String) (font_size : ℚ) (is_bold : Bool) (is_italic : Bool)
  | table (caption : String) (headers : List String) (rows : List (List String))
  | image (description : String) (position : String)
deriving DecidableEq, Repr, Inhabited

/-- Engine state during the pass: the sections built so far, plus the two
attachment pointers, modelled as indices into the tree
(`currentSection = some i` points at `sections[i]`;
`currentSubsection = some (i, j)` points at `sections[i].subsections[j]`). -/
structure InferState where
  sections : List Section
  currentSection : Option Nat
  currentSubsection : Option (Nat × Nat)
deriving DecidableEq, Repr, Inhabited

/-- Python's `str.strip()`: remove leading and trailing whitespace,
modelled directly over the character list. -/
def strip (s : String) : String :=
  ⟨((s.data.dropWhile Char.isWhitespace).reverse.dropWhile Char.isWhitespace).reverse⟩

/-- Apply `f` to the element at index `i`, leaving the list unchanged when
`i` is out of range. -/
def modifyAt {α : Type} : List α → Nat → (α → α) → List α
  | [], _, _ => []
  | a :: t, 0, f => f a :: t
  | a :: t, n + 1, f => a :: modifyAt t n f

/-- Append one content item to a subsection. -/
def appendToSubsec (sub : Subsection) (c : ContentItem) : Subsection :=
  { sub with content := sub.content ++ [c] }

/-- Append one content item to the last subsection of a section
(`section["subsections"][-1]["content"].append(content)`). -/
def appendToLastSubsec (sec : Section) (c : ContentItem) : Section :=
  { sec with subsections :=
      (modifyAt sec.subsections (sec.subsections.length - 1) (fun sub => appendToSubsec sub c)) }

/-- Ensure a section has at least one subsection, creating the default
"Contenu" subsection when it has none. -/
def ensureSubsec (sec : Section) : Section :=
  if sec.subsections = [] then
    { sec with subsections := sec.subsections ++ [{ title := "Contenu", content := [] }] }
  else sec

/-- Section-heading test: `font_size > 16 or (is_bold and font_size > 12)`. -/
def isSectionHeading (font_size : ℚ) (is_bold : Bool) : Bool :=
  decide (font_size > 16) || (is_bold && decide (font_size > 12))

/-- Subsection-heading font test: `font_size > 14 or (is_bold and font_size > 11)`. -/
def isSubsectionHeading (font_size : ℚ) (is_bold : Bool) : Bool :=
  decide (font_size > 14) || (is_bold && decide (font_size > 11))

/-- The attachment rule (`_add_content`): append a content item to the
current subsection if set; else to the current section (creating a default
"Contenu" subsection when it has none); else to the last subsection of the
last section (creating a default "Contenu principal"/"Introduction" pair
when no section exists at all).  The final fallback indexes
`sections[-1]["subsections"][-1]`, which raises in Python when the last
section has no subsection: that case returns `none`. -/
def addContent (s : InferState) (c : ContentItem) : Option InferState :=
  match s.currentSubsection with
  | some (i, j) =>
      some { s with sections :=
        (modifyAt s.sections i (fun sec =>
          { sec with subsections :=
              (modifyAt sec.subsections j (fun sub => appendToSubsec sub c)) })) }
  | none =>
    match s.currentSection with
    | some i =>
        some { s with sections :=
          (modifyAt s.sections i (fun sec => appendToLastSubsec (ensureSubsec sec) c)) }
    | none =>
        let sections := if s.sections = [] then
            s.sections ++ [{ title := "Contenu principal",
                             subsections := [{ title := "Introduction", content := [] }] }]
          else s.sections
        match sections.getLast? with
        | none => none
        | some lastSec =>
          if lastSec.subsections = [] then none
          else some { s with sections :=
            (modifyAt sections (sections.length - 1) (fun sec => appendToLastSubsec sec c)) }

/-- One step of the engine loop: classify a primitive and update the
state.  Text runs are stripped; empty ones are skipped.  A section heading
starts a new section and clears the subsection pointer; a subsection
heading with a current section starts a new subsection; everything else
(body text, a demoted subsection heading, tables, images) goes through the
attachment rule. -/
def processPrim (s : InferState) (p : Primitive) : Option InferState :=
  match p with
  | .textRun text font_size is_bold _ =>
      if strip text = "" then some s
      else if isSectionHeading font_size is_bold then
        some { sections := s.sections ++ [{ title := strip text, subsections := [] }],
               currentSection := some s.sections.length,
               currentSubsection := none }
      else if isSubsectionHeading font_size is_bold then
        match s.currentSection with
        | some i =>
            some { s with
              sections := modifyAt s.sections i (fun sec =>
                { sec with subsections := sec.subsections ++ [{ title := strip text, content := [] }] }),
              currentSubsection := some (i, (s.sections.getD i default).subsections.length) }
        | none => addContent s (ContentItem.paragraph (strip text))
      else addContent s (ContentItem.paragraph (strip text))
  | .table caption headers rows => addContent s (ContentItem.table caption headers rows)
  | .image description position => addContent s (ContentItem.image description position)

/-- The initial engine state: no sections, both pointers unset. -/
def initState : InferState := { sections := [], currentSection := none, currentSubsection := none }

/-- Run the engine over a whole primitive sequence. -/
def runPrims : InferState → List Primitive → Option InferState
  | s, [] => some s
  | s, p :: rest =>
    match processPrim s p with
    | none => none
    | some s' => runPrims s' rest

/-- Python's `text[:100]`: the first 100 characters, modelled over the
character list. -/
def take100 (s : String) : String :=
  ⟨s.data.take 100⟩

/-- Python's `text.split('\n')[0]`: everything up to the first line
break, modelled over the character list. -/
def firstLine (s : String) : String :=
  ⟨s.data.takeWhile (fun ch => ch ≠ '\n')⟩

/-- Title resolution: use the document metadata title when non-empty,
otherwise the first line of the first 100 characters of the first page's
text, otherwise the fixed placeholder "Document sans titre". -/
def resolveTitle (metaTitle : String) (pageText : String) : String :=
  if metaTitle = "" then
    let first_text := take100 pageText
    if first_text = "" then "Document sans titre"
    else firstLine first_text
  else metaTitle

/-- The full inference pass: resolve the title, fold the engine over the
primitive stream, and assemble the document. -/
def infer (metaTitle pageText : String) (meta : Metadata) (prims : List Primitive) :
    Option Document :=
  match runPrims initState prims with
  | none => none
  | some s => some { title := resolveTitle metaTitle pageText, metadata := meta,
                     sections := s.sections }

/-- Reachable-state invariant of the engine: when no section pointer is
set every section so far has at least one subsection; the section pointer,
when set, points at the last section; the subsection pointer, when set,
points at the last subsection of the section the section pointer points at. -/
def Inv (s : InferState) : Prop :=
  (s.currentSection = none → ∀ sec ∈ s.sections, sec.subsections ≠ [])
  ∧ (∀ i, s.currentSection = some i → i + 1 = s.sections.length)
  ∧ (∀ i j, s.currentSubsection = some (i, j) →
      s.currentSection = some i ∧ j + 1 = (s.sections.getD i default).subsections.length)

/-! ### Basic lemmas about `modifyAt` and the small helpers -/

theorem length_modifyAt {α : Type} (l : List α) (i : Nat) (f : α → α) :
    (modifyAt l i f).length = l.length := by
  induction l generalizing i with
  | nil => rfl
  | cons a t ih =>
    cases i with
    | zero => rfl
    | succ n => simp [modifyAt, ih]

theorem modifyAt_ne_nil {α : Type} {l : List α} (i : Nat) (f : α → α) (h : l ≠ []) :
    modifyAt l i f ≠ [] := by
  intro hc
  apply h
  have := length_modifyAt l i f
  rw [hc] at this
  exact List.length_eq_zero.mp this.symm

theorem getElem?_modifyAt_ne {α : Type} (l : List α) (f : α → α) {i j : Nat} (h : i ≠ j) :
    (modifyAt l i f)[j]? = l[j]? := by
  induction l generalizing i j with
  | nil => rfl
  | cons a t ih =>
    cases i with
    | zero =>
      cases j with
      | zero => exact absurd rfl h
      | succ m => simp [modifyAt]
    | succ n =>
      cases j with
      | zero => simp [modifyAt]
      | succ m =>
        simp only [modifyAt, List.getElem?_cons_succ]
        exact ih (fun hc => h (by rw [hc]))

theorem getElem?_modifyAt_self {α : Type} (l : List α) (f : α → α) (i : Nat) :
    (modifyAt l i f)[i]? = (l[i]?).map f := by
  induction l generalizing i with
  | nil => rfl
  | cons a t ih =>
    cases i with
    | zero => simp [modifyAt]
    | succ n => simpa [modifyAt] using ih n

theorem getD_modifyAt_self {α : Type} (l : List α) (f : α → α) {i : Nat} (h : i < l.length)
    (d : α) : (modifyAt l i f).getD i d = f (l.getD i d) := by
  induction l generalizing i with
  | nil => simp at h
  | cons a t ih =>
    cases i with
    | zero => rfl
    | succ n =>
      simp only [modifyAt, List.getD_cons_succ]
      exact ih (by simpa using h)

theorem mem_modifyAt {α : Type} {l : List α} {i : Nat} {f : α → α} {x : α}
    (h : x ∈ modifyAt l i f) : x ∈ l ∨ ∃ y, y ∈ l ∧ x = f y := by
  induction l generalizing i with
  | nil => simp [modifyAt] at h
  | cons a t ih =>
    cases i with
    | zero =>
      simp only [modifyAt] at h
      rcases List.mem_cons.mp h with rfl | h
      · exact Or.inr ⟨a, List.mem_cons_self a t, rfl⟩
      · exact Or.inl (List.mem_cons_of_mem a h)
    | succ n =>
      simp only [modifyAt] at h
      rcases List.mem_cons.mp h with rfl | h
      · exact Or.inl (List.mem_cons_self x t)
      · rcases ih h with h' | ⟨y, hy, hxy⟩
        · exact Or.inl (List.mem_cons_of_mem a h')
        · exact Or.inr ⟨y, List.mem_cons_of_mem a hy, hxy⟩

theorem map_modifyAt {α β : Type} (l : List α) (i : Nat) (f : α → α) (g : α → β)
    (hfg : ∀ a, g (f a) = g a) : (modifyAt l i f).map g = l.map g := by
  induction l generalizing i with
  | nil => rfl
  | cons a t ih =>
    cases i with
    | zero => simp [modifyAt, hfg]
    | succ n => simp [modifyAt, ih]

theorem appendToLastSubsec_title (sec : Section) (c : ContentItem) :
    (appendToLastSubsec sec c).title = sec.title := rfl

theorem appendToLastSubsec_length (sec : Section) (c : ContentItem) :
    (appendToLastSubsec sec c).subsections.length = sec.subsections.length :=
  length_modifyAt _ _ _

theorem appendToLastSubsec_subsec_titles (sec : Section) (c : ContentItem) :
    (appendToLastSubsec sec c).subsections.map Subsection.title =
      sec.subsections.map Subsection.title :=
  map_modifyAt _ _ _ _ (fun _ => rfl)

theorem ensureSubsec_title (sec : Section) : (ensureSubsec sec).title = sec.title := by
  unfold ensureSubsec
  split <;> rfl

theorem ensureSubsec_ne_nil (sec : Section) : (ensureSubsec sec).subsections ≠ [] := by
  unfold ensureSubsec
  split
  · simp
  · assumption

theorem ensureSubsec_of_ne_nil {sec : Section} (h : sec.subsections ≠ []) :
    ensureSubsec sec = sec := by
  unfold ensureSubsec
  simp [h]

/-! ### Case lemmas for the attachment rule -/

theorem addContent_of_subsec (s : InferState) (c : ContentItem) {i j : Nat}
    (h : s.currentSubsection = some (i, j)) :
    addContent s c = some { s with sections :=
      (modifyAt s.sections i (fun sec =>
        { sec with subsections :=
            (modifyAt sec.subsections j (fun sub => appendToSubsec sub c)) })) } := by
  simp [addContent, h]

theorem addContent_of_section (s : InferState) (c : ContentItem) {i : Nat}
    (hsub : s.currentSubsection = none) (hsec : s.currentSection = some i) :
    addContent s c = some { s with sections :=
      (modifyAt s.sections i (fun sec => appendToLastSubsec (ensureSubsec sec) c)) } := by
  simp [addContent, hsub, hsec]

theorem addContent_of_orphan_empty (s : InferState) (c : ContentItem)
    (hsub : s.currentSubsection = none) (hsec : s.currentSection = none)
    (hnil : s.sections = []) :
    addContent s c = some { s with sections :=
      [{ title := "Contenu principal",
         subsections := [{ title := "Introduction", content := [c] }] }] } := by
  simp [addContent, hsub, hsec, hnil, modifyAt, appendToLastSubsec, appendToSubsec]

theorem addContent_of_orphan_nonempty (s : InferState) (c : ContentItem) {lastSec : Section}
    (hsub : s.currentSubsection = none) (hsec : s.currentSection = none)
    (hlast : s.sections.getLast? = some lastSec) (hne : lastSec.subsections ≠ []) :
    addContent s c = some { s with sections :=
      (modifyAt s.sections (s.sections.length - 1) (fun sec => appendToLastSubsec sec c)) } := by
  have hnil : s.sections ≠ [] := by
    intro hc
    rw [hc] at hlast
    simp at hlast
  simp [addContent, hsub, hsec, hnil, hlast, hne]

theorem addContent_orphan_fail (s : InferState) (c : ContentItem) {lastSec : Section}
    (hsub : s.currentSubsection = none) (hsec : s.currentSection = none)
    (hne : s.sections ≠ []) (hlast : s.sections.getLast? = some lastSec)
    (hl : lastSec.subsections = []) : addContent s c = none := by
  simp [addContent, hsub, hsec, hne, hlast, hl]

/-! ### Case lemmas for one engine step -/

theorem processPrim_skip (s : InferState) (text : String) (font_size : ℚ)
    (is_bold is_italic : Bool) (h : strip text = "") :
    processPrim s (.textRun text font_size is_bold is_italic) = some s := by
  simp [processPrim, h]

theorem processPrim_section (s : InferState) (text : String) (font_size : ℚ)
    (is_bold is_italic : Bool) (h : strip text ≠ "")
    (hh : isSectionHeading font_size is_bold = true) :
    processPrim s (.textRun text font_size is_bold is_italic) =
      some { sections := s.sections ++ [{ title := strip text, subsections := [] }],
             currentSection := some s.sections.length,
             currentSubsection := none } := by
  simp [processPrim, h, hh]

theorem processPrim_subsection (s : InferState) (text : String) (font_size : ℚ)
    (is_bold is_italic : Bool) {i : Nat} (h : strip text ≠ "")
    (hh : isSectionHeading font_size is_bold = false)
    (hsub : isSubsectionHeading font_size is_bold = true)
    (hsec : s.currentSection = some i) :
    processPrim s (.textRun text font_size is_bold is_italic) =
      some { s with
        sections := modifyAt s.sections i (fun sec =>
          { sec with subsections := sec.subsections ++ [{ title := strip text, content := [] }] }),
        currentSubsection := some (i, (s.sections.getD i default).subsections.length) } := by
  simp [processPrim, h, hh, hsub, hsec]

theorem processPrim_demoted (s : InferState) (text : String) (font_size : ℚ)
    (is_bold is_italic : Bool) (h : strip text ≠ "")
    (hh : isSectionHeading font_size is_bold = false)
    (hsub : isSubsectionHeading font_size is_bold = true)
    (hsec : s.currentSection = none) :
    processPrim s (.textRun text font_size is_bold is_italic) =
      addContent s (ContentItem.paragraph (strip text)) := by
  simp [processPrim, h, hh, hsub, hsec]

theorem processPrim_body (s : InferState) (text : String) (font_size : ℚ)
    (is_bold is_italic : Bool) (h : strip text ≠ "")
    (hh : isSectionHeading font_size is_bold = false)
    (hsub : isSubsectionHeading font_size is_bold = false) :
    processPrim s (.textRun text font_size is_bold is_italic) =
      addContent s (ContentItem.paragraph (strip text)) := by
  simp [processPrim, h, hh, hsub]

theorem processPrim_table (s : InferState) (caption : String) (headers : List String)
    (rows : List (List String)) :
    processPrim s (.table caption headers rows) =
      addContent s (ContentItem.table caption headers rows) := rfl

theorem processPrim_image (s : InferState) (description position : String) :
    processPrim s (.image description position) =
      addContent s (ContentItem.image description position) := rfl

/-! ### The reachability invariant is preserved by every step -/

theorem inv_initState : Inv initState := by
  refine ⟨?_, ?_, ?_⟩ <;> simp [initState]

theorem inv_update_sections {s : InferState} {X : List Section} (hs : Inv s)
    (hlen : X.length = s.sections.length)
    (hne : s.currentSection = none → ∀ sec ∈ X, sec.subsections ≠ [])
    (hsub : ∀ i j, s.currentSubsection = some (i, j) →
        j + 1 = (X.getD i default).subsections.length) :
    Inv { s with sections := X } := by
  refine ⟨?_, ?_, ?_⟩
  · intro hn
    exact hne hn
  · intro k hk
    show k + 1 = X.length
    rw [hlen]
    exact hs.2.1 k hk
  · intro k l hkl
    exact ⟨(hs.2.2 k l hkl).1, hsub k l hkl⟩

theorem inv_addContent {s s' : InferState} {c : ContentItem} (hs : Inv s)
    (h : addContent s c = some s') : Inv s' := by
  cases hsub : s.currentSubsection with
  | some ij =>
    obtain ⟨i, j⟩ := ij
    obtain ⟨hcs, hj⟩ := hs.2.2 i j hsub
    have hilt : i < s.sections.length := by
      have := hs.2.1 i hcs
      omega
    rw [addContent_of_subsec s c hsub] at h
    cases h
    apply inv_update_sections hs (length_modifyAt _ _ _)
    · intro hn
      rw [hn] at hcs
      cases hcs
    · intro k l hkl
      rw [hsub] at hkl
      simp only [Option.some.injEq, Prod.mk.injEq] at hkl
      obtain ⟨rfl, rfl⟩ := hkl
      rw [getD_modifyAt_self _ _ hilt]
      dsimp only
      rw [length_modifyAt]
      exact hj
  | none =>
    cases hcs : s.currentSection with
    | some i =>
      rw [addContent_of_section s c hsub hcs] at h
      cases h
      apply inv_update_sections hs (length_modifyAt _ _ _)
      · intro hn
        rw [hn] at hcs
        cases hcs
      · intro k l hkl
        rw [hsub] at hkl
        cases hkl
    | none =>
      cases hnil : s.sections with
      | nil =>
        rw [addContent_of_orphan_empty s c hsub hcs hnil] at h
        cases h
        refine ⟨?_, ?_, ?_⟩
        · intro _ sec hsec
          simp only [List.mem_singleton] at hsec
          subst hsec
          simp
        · intro k hk
          rw [hcs] at hk
          cases hk
        · intro k l hkl
          rw [hsub] at hkl
          cases hkl
      | cons a t =>
        have hne : s.sections ≠ [] := by rw [hnil]; simp
        obtain ⟨lastSec, hlast⟩ :=
          Option.isSome_iff_exists.mp ((List.getLast?_isSome).mpr hne)
        have hlmem : lastSec ∈ s.sections := by
          rcases List.mem_getLast?_eq_getLast hlast with ⟨hh, heq⟩
          rw [heq]
          exact List.getLast_mem hh
        have hlne : lastSec.subsections ≠ [] := hs.1 hcs lastSec hlmem
        rw [addContent_of_orphan_nonempty s c hsub hcs hlast hlne] at h
        cases h
        apply inv_update_sections hs (length_modifyAt _ _ _)
        · intro _ sec hsec
          rcases mem_modifyAt hsec with hmem | ⟨y, hy, rfl⟩
          · exact hs.1 hcs sec hmem
          · have hyne : y.subsections ≠ [] := hs.1 hcs y hy
            intro hcon
            apply hyne
            have := appendToLastSubsec_length y c
            rw [hcon] at this
            exact List.length_eq_zero.mp this.symm
        · intro k l hkl
          rw [hsub] at hkl
          cases hkl

theorem addContent_isSome {s : InferState} (hs : Inv s) (c : ContentItem) :
    (addContent s c).isSome = true := by
  cases hsub : s.currentSubsection with
  | some ij =>
    obtain ⟨i, j⟩ := ij
    rw [addContent_of_subsec s c hsub]
    rfl
  | none =>
    cases hcs : s.currentSection with
    | some i =>
      rw [addContent_of_section s c hsub hcs]
      rfl
    | none =>
      cases hnil : s.sections with
      | nil =>
        rw [addContent_of_orphan_empty s c hsub hcs hnil]
        rfl
      | cons a t =>
        have hne : s.sections ≠ [] := by rw [hnil]; simp
        obtain ⟨lastSec, hlast⟩ :=
          Option.isSome_iff_exists.mp ((List.getLast?_isSome).mpr hne)
        have hlmem : lastSec ∈ s.sections := by
          rcases List.mem_getLast?_eq_getLast hlast with ⟨hh, heq⟩
          rw [heq]
          exact List.getLast_mem hh
        have hlne : lastSec.subsections ≠ [] := hs.1 hcs lastSec hlmem
        rw [addContent_of_orphan_nonempty s c hsub hcs hlast hlne]
        rfl

theorem inv_processPrim {s s' : InferState} {p : Primitive} (hs : Inv s)
    (h : processPrim s p = some s') : Inv s' := by
  cases p with
  | textRun text font_size is_bold is_italic =>
    by_cases hst : strip text = ""
    · rw [processPrim_skip s text font_size is_bold is_italic hst] at h
      cases h
      exact hs
    · cases hh : isSectionHeading font_size is_bold with
      | true =>
        rw [processPrim_section s text font_size is_bold is_italic hst hh] at h
        cases h
        refine ⟨?_, ?_, ?_⟩
        · intro hn
          cases hn
        · intro k hk
          cases hk
          simp
        · intro k l hkl
          cases hkl
      | false =>
        cases hsub : isSubsectionHeading font_size is_bold with
        | true =>
          cases hcs : s.currentSection with
          | some i =>
            have hilt : i < s.sections.length := by
              have := hs.2.1 i hcs
              omega
            rw [processPrim_subsection s text font_size is_bold is_italic hst hh hsub hcs] at h
            cases h
            refine ⟨?_, ?_, ?_⟩
            · intro hn
              have hn' : s.currentSection = none := hn
              rw [hn'] at hcs
              cases hcs
            · intro k hk
              have hk' : s.currentSection = some k := hk
              have hlen := length_modifyAt s.sections i (fun sec =>
                { sec with subsections :=
                    sec.subsections ++ [{ title := strip text, content := [] }] })
              dsimp only
              rw [hlen]
              exact hs.2.1 k hk'
            · intro k l hkl
              simp only [Option.some.injEq, Prod.mk.injEq] at hkl
              obtain ⟨rfl, rfl⟩ := hkl
              refine ⟨hcs, ?_⟩
              rw [getD_modifyAt_self _ _ hilt]
              simp
          | none =>
            rw [processPrim_demoted s text font_size is_bold is_italic hst hh hsub hcs] at h
            exact inv_addContent hs h
        | false =>
          rw [processPrim_body s text font_size is_bold is_italic hst hh hsub] at h
          exact inv_addContent hs h
  | table caption headers rows =>
    rw [processPrim_table] at h
    exact inv_addContent hs h
  | image description position =>
    rw [processPrim_image] at h
    exact inv_addContent hs h

theorem processPrim_isSome {s : InferState} (hs : Inv s) (p : Primitive) :
    (processPrim s p).isSome = true := by
  cases p with
  | textRun text font_size is_bold is_italic =>
    by_cases hst : strip text = ""
    · rw [processPrim_skip s text font_size is_bold is_italic hst]
      rfl
    · cases hh : isSectionHeading font_size is_bold with
      | true =>
        rw [processPrim_section s text font_size is_bold is_italic hst hh]
        rfl
      | false =>
        cases hsub : isSubsectionHeading font_size is_bold with
        | true =>
          cases hcs : s.currentSection with
          | some i =>
            rw [processPrim_subsection s text font_size is_bold is_italic hst hh hsub hcs]
            rfl
          | none =>
            rw [processPrim_demoted s text font_size is_bold is_italic hst hh hsub hcs]
            exact addContent_isSome hs _
        | false =>
          rw [processPrim_body s text font_size is_bold is_italic hst hh hsub]
          exact addContent_isSome hs _
  | table caption headers rows =>
    rw [processPrim_table]
    exact addContent_isSome hs _
  | image description position =>
    rw [processPrim_image]
    exact addContent_isSome hs _

theorem runPrims_isSome {s : InferState} (hs : Inv s) (prims : List Primitive) :
    (runPrims s prims).isSome = true := by
  induction prims generalizing s with
  | nil => rfl
  | cons p rest ih =>
    obtain ⟨s', hsome⟩ := Option.isSome_iff_exists.mp (processPrim_isSome hs p)
    rw [runPrims, hsome]
    exact ih (inv_processPrim hs hsome)

theorem inv_runPrims {s s' : InferState} {prims : List Primitive} (hs : Inv s)
    (h : runPrims s prims = some s') : Inv s' := by
  induction prims generalizing s with
  | nil =>
    cases h
    exact hs
  | cons p rest ih =>
    rw [runPrims] at h
    cases hsome : processPrim s p with
    | none => rw [hsome] at h; cases h
    | some s₁ =>
      rw [hsome] at h
      exact ih (inv_processPrim hs hsome) h

/-! ### Ordering: section titles mirror the heading encounter order -/

/-- The section title contributed by a single primitive: the stripped text
when the primitive is a non-empty text run classified as a section
heading, nothing otherwise. -/
def primSectionTitle : Primitive → List String
  | .textRun text font_size is_bold _ =>
      if strip text = "" then []
      else if isSectionHeading font_size is_bold then [strip text]
      else []
  | _ => []

/-- The section titles contributed by a primitive sequence, in encounter
order. -/
def sectionTitlesOf : List Primitive → List String
  | [] => []
  | p :: rest => primSectionTitle p ++ sectionTitlesOf rest

theorem addContent_titles {s s' : InferState} {c : ContentItem} (hs : Inv s)
    (hne : s.sections ≠ []) (h : addContent s c = some s') :
    s'.sections.map Section.title = s.sections.map Section.title := by
  cases hsub : s.currentSubsection with
  | some ij =>
    obtain ⟨i, j⟩ := ij
    rw [addContent_of_subsec s c hsub] at h
    cases h
    exact map_modifyAt _ _ _ _ (fun _ => rfl)
  | none =>
    cases hcs : s.currentSection with
    | some i =>
      rw [addContent_of_section s c hsub hcs] at h
      cases h
      exact map_modifyAt _ _ _ _ (fun a => by
        rw [appendToLastSubsec_title, ensureSubsec_title])
    | none =>
      obtain ⟨lastSec, hlast⟩ :=
        Option.isSome_iff_exists.mp ((List.getLast?_isSome).mpr hne)
      have hlmem : lastSec ∈ s.sections := by
        rcases List.mem_getLast?_eq_getLast hlast with ⟨hh, heq⟩
        rw [heq]
        exact List.getLast_mem hh
      have hlne : lastSec.subsections ≠ [] := hs.1 hcs lastSec hlmem
      rw [addContent_of_orphan_nonempty s c hsub hcs hlast hlne] at h
      cases h
      exact map_modifyAt _ _ _ _ (fun a => appendToLastSubsec_title a c)

theorem step_titles_nonempty {s s' : InferState} {p : Primitive} (hs : Inv s)
    (hne : s.sections ≠ []) (h : processPrim s p = some s') :
    s'.sections.map Section.title = s.sections.map Section.title ++ primSectionTitle p ∧
      s'.sections ≠ [] := by
  have hne' : ∀ (e : s'.sections.map Section.title = s.sections.map Section.title
      ++ primSectionTitle p), s'.sections ≠ [] := by
    intro e hc
    rw [hc] at e
    simp only [List.map_nil] at e
    have := List.append_ne_nil_of_left_ne_nil (s := s.sections.map Section.title)
      (t := primSectionTitle p) (by simpa using hne)
    exact this e.symm
  cases p with
  | textRun text font_size is_bold is_italic =>
    by_cases hst : strip text = ""
    · rw [processPrim_skip s text font_size is_bold is_italic hst] at h
      cases h
      have e : s.sections.map Section.title =
          s.sections.map Section.title ++ primSectionTitle (Primitive.textRun text font_size is_bold is_italic) := by
        simp [primSectionTitle, hst]
      exact ⟨e, hne' e⟩
    · cases hh : isSectionHeading font_size is_bold with
      | true =>
        rw [processPrim_section s text font_size is_bold is_italic hst hh] at h
        cases h
        have e : (s.sections ++ [({ title := strip text, subsections := [] } : Section)]).map Section.title =
            s.sections.map Section.title
              ++ primSectionTitle (Primitive.textRun text font_size is_bold is_italic) := by
          simp [primSectionTitle, hst, hh]
        exact ⟨e, hne' e⟩
      | false =>
        have hpt : primSectionTitle (Primitive.textRun text font_size is_bold is_italic) = [] := by
          simp [primSectionTitle, hst, hh]
        cases hsub : isSubsectionHeading font_size is_bold with
        | true =>
          cases hcs : s.currentSection with
          | some i =>
            rw [processPrim_subsection s text font_size is_bold is_italic hst hh hsub hcs] at h
            cases h
            have e : (modifyAt s.sections i (fun sec =>
                { sec with subsections := sec.subsections
                    ++ [{ title := strip text, content := [] }] })).map Section.title =
                s.sections.map Section.title
                  ++ primSectionTitle (Primitive.textRun text font_size is_bold is_italic) := by
              rw [hpt, List.append_nil]
              exact map_modifyAt _ _ _ _ (fun _ => rfl)
            exact ⟨e, hne' e⟩
          | none =>
            rw [processPrim_demoted s text font_size is_bold is_italic hst hh hsub hcs] at h
            have e := addContent_titles hs hne h
            rw [hpt, List.append_nil]
            exact ⟨e, fun hc => by
              rw [hc] at e
              simp only [List.map_nil] at e
              exact hne (List.map_eq_nil_iff.mp e.symm)⟩
        | false =>
          rw [processPrim_body s text font_size is_bold is_italic hst hh hsub] at h
          have e := addContent_titles hs hne h
          rw [hpt, List.append_nil]
          exact ⟨e, fun hc => by
            rw [hc] at e
            simp only [List.map_nil] at e
            exact hne (List.map_eq_nil_iff.mp e.symm)⟩
  | table caption headers rows =>
    rw [processPrim_table] at h
    have e := addContent_titles hs hne h
    rw [show primSectionTitle (Primitive.table caption headers rows) = [] from rfl,
      List.append_nil]
    exact ⟨e, fun hc => by
      rw [hc] at e
      simp only [List.map_nil] at e
      exact hne (List.map_eq_nil_iff.mp e.symm)⟩
  | image description position =>
    rw [processPrim_image] at h
    have e := addContent_titles hs hne h
    rw [show primSectionTitle (Primitive.image description position) = [] from rfl,
      List.append_nil]
    exact ⟨e, fun hc => by
      rw [hc] at e
      simp only [List.map_nil] at e
      exact hne (List.map_eq_nil_iff.mp e.symm)⟩

theorem run_titles_nonempty {s : InferState} {prims : List Primitive} {s' : InferState}
    (hs : Inv s) (hne : s.sections ≠ []) (h : runPrims s prims = some s') :
    s'.sections.map Section.title = s.sections.map Section.title ++ sectionTitlesOf prims := by
  induction prims generalizing s with
  | nil =>
    cases h
    simp [sectionTitlesOf]
  | cons p rest ih =>
    rw [runPrims] at h
    cases hsome : processPrim s p with
    | none => rw [hsome] at h; cases h
    | some s₁ =>
      rw [hsome] at h
      obtain ⟨e, hne₁⟩ := step_titles_nonempty hs hne hsome
      have := ih (inv_processPrim hs hsome) hne₁ h
      rw [this, e, sectionTitlesOf, List.append_assoc]

theorem step_from_empty {s' : InferState} {p : Primitive}
    (h : processPrim initState p = some s') :
    (s' = initState ∧ primSectionTitle p = []) ∨
    (s'.sections.map Section.title = primSectionTitle p ∧ s'.sections ≠ [] ∧ Inv s') ∨
    (s'.sections.map Section.title = ["Contenu principal"] ∧ primSectionTitle p = [] ∧
      s'.sections ≠ [] ∧ Inv s') := by
  have horph : ∀ c, addContent initState c =
      some { initState with sections :=
        [{ title := "Contenu principal",
           subsections := [{ title := "Introduction", content := [c] }] }] } :=
    fun c => addContent_of_orphan_empty initState c rfl rfl rfl
  have hinv' : Inv s' := inv_processPrim inv_initState h
  cases p with
  | textRun text font_size is_bold is_italic =>
    by_cases hst : strip text = ""
    · rw [processPrim_skip initState text font_size is_bold is_italic hst] at h
      cases h
      exact Or.inl ⟨rfl, by simp [primSectionTitle, hst]⟩
    · cases hh : isSectionHeading font_size is_bold with
      | true =>
        rw [processPrim_section initState text font_size is_bold is_italic hst hh] at h
        refine Or.inr (Or.inl ⟨?_, ?_, hinv'⟩)
        · cases h
          simp [initState, primSectionTitle, hst, hh]
        · cases h
          simp [initState]
      | false =>
        have hpt : primSectionTitle (Primitive.textRun text font_size is_bold is_italic) = [] := by
          simp [primSectionTitle, hst, hh]
        have hdem : processPrim initState (Primitive.textRun text font_size is_bold is_italic) =
            addContent initState (ContentItem.paragraph (strip text)) := by
          cases hsub : isSubsectionHeading font_size is_bold with
          | true => exact processPrim_demoted initState text font_size is_bold is_italic hst hh hsub rfl
          | false => exact processPrim_body initState text font_size is_bold is_italic hst hh hsub
        rw [hdem, horph] at h
        refine Or.inr (Or.inr ⟨?_, hpt, ?_, hinv'⟩)
        · cases h
          rfl
        · cases h
          simp
  | table caption headers rows =>
    rw [processPrim_table, horph] at h
    refine Or.inr (Or.inr ⟨?_, rfl, ?_, hinv'⟩)
    · cases h
      rfl
    · cases h
      simp
  | image description position =>
    rw [processPrim_image, horph] at h
    refine Or.inr (Or.inr ⟨?_, rfl, ?_, hinv'⟩)
    · cases h
      rfl
    · cases h
      simp

theorem run_titles_init {prims : List Primitive} {s' : InferState}
    (h : runPrims initState prims = some s') :
    s'.sections.map Section.title = sectionTitlesOf prims ∨
      s'.sections.map Section.title = "Contenu principal" :: sectionTitlesOf prims := by
  induction prims generalizing s' with
  | nil =>
    cases h
    exact Or.inl rfl
  | cons p rest ih =>
    rw [runPrims] at h
    cases hsome : processPrim initState p with
    | none => rw [hsome] at h; cases h
    | some s₁ =>
      rw [hsome] at h
      rcases step_from_empty hsome with ⟨rfl, hpt⟩ | ⟨e, hne₁, hinv₁⟩ | ⟨e, hpt, hne₁, hinv₁⟩
      · rcases ih h with h' | h'
        · exact Or.inl (by rw [h', sectionTitlesOf, hpt, List.nil_append])
        · exact Or.inr (by rw [h', sectionTitlesOf, hpt, List.nil_append])
      · left
        rw [run_titles_nonempty hinv₁ hne₁ h, e, sectionTitlesOf]
      · right
        rw [run_titles_nonempty hinv₁ hne₁ h, e, sectionTitlesOf, hpt, List.nil_append]
        rfl

/-! ### Frame lemmas: a step only appends sections or touches the last one -/

theorem addContent_frame {s s' : InferState} {c : ContentItem} (hs : Inv s)
    (h : addContent s c = some s') :
    s.sections.length ≤ s'.sections.length ∧
      ∀ j, j + 1 < s.sections.length → s'.sections[j]? = s.sections[j]? := by
  cases hsub : s.currentSubsection with
  | some ij =>
    obtain ⟨i, j⟩ := ij
    obtain ⟨hcs, _⟩ := hs.2.2 i j hsub
    have hi := hs.2.1 i hcs
    rw [addContent_of_subsec s c hsub] at h
    cases h
    refine ⟨le_of_eq (length_modifyAt _ _ _).symm, fun k hk => ?_⟩
    exact getElem?_modifyAt_ne _ _ (by omega)
  | none =>
    cases hcs : s.currentSection with
    | some i =>
      have hi := hs.2.1 i hcs
      rw [addContent_of_section s c hsub hcs] at h
      cases h
      refine ⟨le_of_eq (length_modifyAt _ _ _).symm, fun k hk => ?_⟩
      exact getElem?_modifyAt_ne _ _ (by omega)
    | none =>
      by_cases hnil : s.sections = []
      · rw [addContent_of_orphan_empty s c hsub hcs hnil] at h
        cases h
        refine ⟨?_, fun k hk => ?_⟩
        · rw [hnil]
          simp
        · rw [hnil] at hk
          simp at hk
      · obtain ⟨lastSec, hlast⟩ :=
          Option.isSome_iff_exists.mp ((List.getLast?_isSome).mpr hnil)
        have hlmem : lastSec ∈ s.sections := by
          rcases List.mem_getLast?_eq_getLast hlast with ⟨hh, heq⟩
          rw [heq]
          exact List.getLast_mem hh
        have hlne : lastSec.subsections ≠ [] := hs.1 hcs lastSec hlmem
        rw [addContent_of_orphan_nonempty s c hsub hcs hlast hlne] at h
        cases h
        refine ⟨le_of_eq (length_modifyAt _ _ _).symm, fun k hk => ?_⟩
        exact getElem?_modifyAt_ne _ _ (by omega)

theorem step_frame {s s' : InferState} {p : Primitive} (hs : Inv s)
    (h : processPrim s p = some s') :
    s.sections.length ≤ s'.sections.length ∧
      ∀ j, j + 1 < s.sections.length → s'.sections[j]? = s.sections[j]? := by
  cases p with
  | textRun text font_size is_bold is_italic =>
    by_cases hst : strip text = ""
    · rw [processPrim_skip s text font_size is_bold is_italic hst] at h
      cases h
      exact ⟨le_rfl, fun k _ => rfl⟩
    · cases hh : isSectionHeading font_size is_bold with
      | true =>
        rw [processPrim_section s text font_size is_bold is_italic hst hh] at h
        cases h
        refine ⟨?_, fun k hk => ?_⟩
        · simp
        · exact List.getElem?_append_left (by omega)
      | false =>
        cases hsub : isSubsectionHeading font_size is_bold with
        | true =>
          cases hcs : s.currentSection with
          | some i =>
            have hi := hs.2.1 i hcs
            rw [processPrim_subsection s text font_size is_bold is_italic hst hh hsub hcs] at h
            cases h
            refine ⟨le_of_eq (length_modifyAt _ _ _).symm, fun k hk => ?_⟩
            exact getElem?_modifyAt_ne _ _ (by omega)
          | none =>
            rw [processPrim_demoted s text font_size is_bold is_italic hst hh hsub hcs] at h
            exact addContent_frame hs h
        | false =>
          rw [processPrim_body s text font_size is_bold is_italic hst hh hsub] at h
          exact addContent_frame hs h
  | table caption headers rows =>
    rw [processPrim_table] at h
    exact addContent_frame hs h
  | image description position =>
    rw [processPrim_image] at h
    exact addContent_frame hs h

theorem run_frame {s : InferState} {prims : List Primitive} {s' : InferState} (hs : Inv s)
    (h : runPrims s prims = some s') :
    s.sections.length ≤ s'.sections.length ∧
      ∀ j, j + 1 < s.sections.length → s'.sections[j]? = s.sections[j]? := by
  induction prims generalizing s with
  | nil =>
    cases h
    exact ⟨le_rfl, fun k _ => rfl⟩
  | cons p rest ih =>
    rw [runPrims] at h
    cases hsome : processPrim s p with
    | none => rw [hsome] at h; cases h
    | some s₁ =>
      rw [hsome] at h
      obtain ⟨hlen₁, hframe₁⟩ := step_frame hs hsome
      obtain ⟨hlen₂, hframe₂⟩ := ih (inv_processPrim hs hsome) h
      refine ⟨le_trans hlen₁ hlen₂, fun k hk => ?_⟩
      rw [hframe₂ k (by omega), hframe₁ k hk]

theorem addContent_lastSec_subsec_titles {s s' : InferState} {c : ContentItem} (hs : Inv s)
    (h : addContent s c = some s') {sec sec' : Section}
    (hsec : s.sections[s.sections.length - 1]? = some sec)
    (hsec' : s'.sections[s.sections.length - 1]? = some sec') :
    ∃ t, sec.subsections.map Subsection.title ++ t = sec'.subsections.map Subsection.title := by
  have hlen : 0 < s.sections.length := by
    by_contra hc
    have h0 : s.sections.length = 0 := by omega
    rw [List.length_eq_zero] at h0
    rw [h0] at hsec
    simp at hsec
  cases hsub : s.currentSubsection with
  | some ij =>
    obtain ⟨i, j⟩ := ij
    obtain ⟨hcs, _⟩ := hs.2.2 i j hsub
    have hi := hs.2.1 i hcs
    have hieq : i = s.sections.length - 1 := by omega
    rw [addContent_of_subsec s c hsub] at h
    cases h
    rw [← hieq, getElem?_modifyAt_self, hieq, hsec] at hsec'
    simp only [Option.map_some'] at hsec'
    cases hsec'
    refine ⟨[], ?_⟩
    rw [List.append_nil]
    exact (map_modifyAt sec.subsections j (fun sub => appendToSubsec sub c)
      Subsection.title (fun _ => rfl)).symm
  | none =>
    cases hcs : s.currentSection with
    | some i =>
      have hi := hs.2.1 i hcs
      have hieq : i = s.sections.length - 1 := by omega
      rw [addContent_of_section s c hsub hcs] at h
      cases h
      rw [← hieq, getElem?_modifyAt_self, hieq, hsec] at hsec'
      simp only [Option.map_some'] at hsec'
      cases hsec'
      rw [appendToLastSubsec_subsec_titles]
      by_cases hsnil : sec.subsections = []
      · refine ⟨["Contenu"], ?_⟩
        rw [hsnil]
        simp [ensureSubsec, hsnil]
      · refine ⟨[], ?_⟩
        rw [List.append_nil, ensureSubsec_of_ne_nil hsnil]
    | none =>
      have hne : s.sections ≠ [] := by
        intro hc
        rw [hc] at hsec
        simp at hsec
      obtain ⟨lastSec, hlast⟩ :=
        Option.isSome_iff_exists.mp ((List.getLast?_isSome).mpr hne)
      have hlmem : lastSec ∈ s.sections := by
        rcases List.mem_getLast?_eq_getLast hlast with ⟨hh, heq⟩
        rw [heq]
        exact List.getLast_mem hh
      have hlne : lastSec.subsections ≠ [] := hs.1 hcs lastSec hlmem
      rw [addContent_of_orphan_nonempty s c hsub hcs hlast hlne] at h
      cases h
      rw [getElem?_modifyAt_self, hsec] at hsec'
      simp only [Option.map_some'] at hsec'
      cases hsec'
      refine ⟨[], ?_⟩
      rw [List.append_nil]
      exact (appendToLastSubsec_subsec_titles sec c).symm

/-- Within the section the engine is currently filling (the last one), a
step never removes or reorders subsections: their title list is only ever
extended on the right. -/
theorem step_lastSec_subsec_titles {s s' : InferState} {p : Primitive} (hs : Inv s)
    (h : processPrim s p = some s') {sec sec' : Section}
    (hsec : s.sections[s.sections.length - 1]? = some sec)
    (hsec' : s'.sections[s.sections.length - 1]? = some sec') :
    ∃ t, sec.subsections.map Subsection.title ++ t = sec'.subsections.map Subsection.title := by
  have hlen : 0 < s.sections.length := by
    by_contra hc
    have h0 : s.sections.length = 0 := by omega
    rw [List.length_eq_zero] at h0
    rw [h0] at hsec
    simp at hsec
  cases p with
  | textRun text font_size is_bold is_italic =>
    by_cases hst : strip text = ""
    · rw [processPrim_skip s text font_size is_bold is_italic hst] at h
      cases h
      rw [hsec] at hsec'
      cases hsec'
      exact ⟨[], List.append_nil _⟩
    · cases hh : isSectionHeading font_size is_bold with
      | true =>
        rw [processPrim_section s text font_size is_bold is_italic hst hh] at h
        cases h
        rw [List.getElem?_append_left (by omega), hsec] at hsec'
        cases hsec'
        exact ⟨[], List.append_nil _⟩
      | false =>
        cases hsub : isSubsectionHeading font_size is_bold with
        | true =>
          cases hcs : s.currentSection with
          | some i =>
            have hi := hs.2.1 i hcs
            have hieq : i = s.sections.length - 1 := by omega
            rw [processPrim_subsection s text font_size is_bold is_italic hst hh hsub hcs] at h
            cases h
            rw [← hieq, getElem?_modifyAt_self, hieq, hsec] at hsec'
            simp only [Option.map_some'] at hsec'
            cases hsec'
            exact ⟨[strip text], by simp⟩
          | none =>
            rw [processPrim_demoted s text font_size is_bold is_italic hst hh hsub hcs] at h
            exact addContent_lastSec_subsec_titles hs h hsec hsec'
        | false =>
          rw [processPrim_body s text font_size is_bold is_italic hst hh hsub] at h
          exact addContent_lastSec_subsec_titles hs h hsec hsec'
  | table caption headers rows =>
    rw [processPrim_table] at h
    exact addContent_lastSec_subsec_titles hs h hsec hsec'
  | image description position =>
    rw [processPrim_image] at h
    exact addContent_lastSec_subsec_titles hs h hsec hsec'

/-! ### Pointer preservation by the attachment rule -/

theorem addContent_pointers {s s' : InferState} {c : ContentItem}
    (h : addContent s c = some s') :
    s'.currentSection = s.currentSection ∧ s'.currentSubsection = s.currentSubsection := by
  cases hsub : s.currentSubsection with
  | some ij =>
    obtain ⟨i, j⟩ := ij
    rw [addContent_of_subsec s c hsub] at h
    cases h
    exact ⟨rfl, hsub⟩
  | none =>
    cases hcs : s.currentSection with
    | some i =>
      rw [addContent_of_section s c hsub hcs] at h
      cases h
      exact ⟨hcs, hsub⟩
    | none =>
      by_cases hnil : s.sections = []
      · rw [addContent_of_orphan_empty s c hsub hcs hnil] at h
        cases h
        exact ⟨hcs, hsub⟩
      · obtain ⟨lastSec, hlast⟩ :=
          Option.isSome_iff_exists.mp ((List.getLast?_isSome).mpr hnil)
        by_cases hlne : lastSec.subsections = []
        · rw [addContent_orphan_fail s c hsub hcs hnil hlast hlne] at h
          cases h
        · rw [addContent_of_orphan_nonempty s c hsub hcs hlast hlne] at h
          cases h
          exact ⟨hcs, hsub⟩

/-! ### Claim theorems -/

/-- Claim C1: a non-empty-text TextRun is classified as a Section heading
exactly when `font_size > 16` or (`is_bold` and `font_size > 12`); in that
case a new section with the stripped text as title is appended, the
current-section pointer is set to it and the current-subsection pointer is
cleared; otherwise the current-section pointer is left unchanged.  The
comparison is strict: size 16 non-bold is not a heading, 16.01 is. -/
theorem section_heading_classification (s : InferState) (text : String) (font_size : ℚ)
    (is_bold is_italic : Bool) (htext : strip text ≠ "") :
    (isSectionHeading font_size is_bold = true ↔
      (font_size > 16 ∨ (is_bold = true ∧ font_size > 12)))
    ∧ (isSectionHeading font_size is_bold = true →
        processPrim s (.textRun text font_size is_bold is_italic) =
          some { sections := s.sections ++ [{ title := strip text, subsections := [] }],
                 currentSection := some s.sections.length,
                 currentSubsection := none })
    ∧ (isSectionHeading font_size is_bold = false →
        ∀ s', processPrim s (.textRun text font_size is_bold is_italic) = some s' →
          s'.currentSection = s.currentSection)
    ∧ isSectionHeading 16 false = false
    ∧ isSectionHeading (16.01 : ℚ) false = true := by
  refine ⟨?_, ?_, ?_, by decide, by norm_num [isSectionHeading]⟩
  · simp [isSectionHeading, Bool.or_eq_true, Bool.and_eq_true, decide_eq_true_eq]
  · intro hh
    exact processPrim_section s text font_size is_bold is_italic htext hh
  · intro hh s' h
    cases hsub : isSubsectionHeading font_size is_bold with
    | true =>
      cases hcs : s.currentSection with
      | some i =>
        rw [processPrim_subsection s text font_size is_bold is_italic htext hh hsub hcs] at h
        cases h
        exact hcs
      | none =>
        rw [processPrim_demoted s text font_size is_bold is_italic htext hh hsub hcs] at h
        exact (addContent_pointers h).1.trans hcs
    | false =>
      rw [processPrim_body s text font_size is_bold is_italic htext hh hsub] at h
      exact (addContent_pointers h).1

/-- Witness for C1 at a concrete input: "Titre" at size 18 starts a new
section. -/
theorem section_heading_classification_witness :
    strip "Titre" ≠ "" ∧ isSectionHeading 18 false = true ∧
      processPrim initState (.textRun "Titre" 18 false false) =
        some { sections := [{ title := "Titre", subsections := [] }],
               currentSection := some 0, currentSubsection := none } :=
  ⟨by decide, by decide,
    (section_heading_classification initState "Titre" 18 false false (by decide)).2.1
      (by decide)⟩

/-- Claim C2: a non-empty TextRun that is not a Section heading is a
Subsection heading exactly when (`font_size > 14` or (`is_bold` and
`font_size > 11`)) and a current section is set; then a new subsection is
appended under the current section and becomes current.  When the font
condition holds but no current section is set, the run is demoted to a
Paragraph routed through the attachment rule. -/
theorem subsection_heading_classification (s : InferState) (text : String) (font_size : ℚ)
    (is_bold is_italic : Bool) (htext : strip text ≠ "")
    (hns : isSectionHeading font_size is_bold = false) :
    (isSubsectionHeading font_size is_bold = true ↔
      (font_size > 14 ∨ (is_bold = true ∧ font_size > 11)))
    ∧ (isSubsectionHeading font_size is_bold = true →
        ∀ i, s.currentSection = some i →
          processPrim s (.textRun text font_size is_bold is_italic) =
            some { s with
              sections := modifyAt s.sections i (fun sec =>
                { sec with subsections :=
                    sec.subsections ++ [{ title := strip text, content := [] }] }),
              currentSubsection := some (i, (s.sections.getD i default).subsections.length) })
    ∧ (isSubsectionHeading font_size is_bold = true → s.currentSection = none →
        processPrim s (.textRun text font_size is_bold is_italic) =
          addContent s (ContentItem.paragraph (strip text)))
    ∧ (isSubsectionHeading font_size is_bold = false →
        processPrim s (.textRun text font_size is_bold is_italic) =
          addContent s (ContentItem.paragraph (strip text))) := by
  refine ⟨?_, ?_, ?_, ?_⟩
  · simp [isSubsectionHeading, Bool.or_eq_true, Bool.and_eq_true, decide_eq_true_eq]
  · intro hsub i hcs
    exact processPrim_subsection s text font_size is_bold is_italic htext hns hsub hcs
  · intro hsub hcs
    exact processPrim_demoted s text font_size is_bold is_italic htext hns hsub hcs
  · intro hsub
    exact processPrim_body s text font_size is_bold is_italic htext hns hsub

/-- Witness for C2 at a concrete input: "Sous" at size 15 under an
existing section becomes a subsection of it. -/
theorem subsection_heading_classification_witness :
    strip "Sous" ≠ "" ∧ isSectionHeading 15 false = false ∧
      processPrim { sections := [{ title := "S", subsections := [] }],
                    currentSection := some 0, currentSubsection := none }
          (.textRun "Sous" 15 false false) =
        some { sections := [{ title := "S",
                              subsections := [{ title := "Sous", content := [] }] }],
               currentSection := some 0, currentSubsection := some (0, 0) } :=
  ⟨by decide, by decide,
    (subsection_heading_classification
        { sections := [{ title := "S", subsections := [] }],
          currentSection := some 0, currentSubsection := none }
        "Sous" 15 false false (by decide) (by decide)).2.1 (by decide) 0 rfl⟩

/-- Claim C8: a TextRun whose stripped text is empty is skipped: the
engine state (tree and both pointers) is returned unchanged. -/
theorem empty_textrun_skipped (s : InferState) (text : String) (font_size : ℚ)
    (is_bold is_italic : Bool) (h : strip text = "") :
    processPrim s (.textRun text font_size is_bold is_italic) = some s :=
  processPrim_skip s text font_size is_bold is_italic h

/-- Witness for C8 at a concrete input: a whitespace-only run at heading
size changes nothing. -/
theorem empty_textrun_skipped_witness :
    strip "  " = "" ∧
      processPrim { sections := [{ title := "S", subsections := [] }],
                    currentSection := some 0, currentSubsection := none }
          (.textRun "  " 20 true false) =
        some { sections := [{ title := "S", subsections := [] }],
               currentSection := some 0, currentSubsection := none } :=
  ⟨by decide,
    empty_textrun_skipped
      { sections := [{ title := "S", subsections := [] }],
        currentSection := some 0, currentSubsection := none } "  " 20 true false (by decide)⟩

/-- Claim C5: the inference pass is total — it returns a Document for
every finite primitive sequence, and on the empty sequence the Document
has zero sections. -/
theorem infer_total :
    (∀ (metaTitle pageText : String) (meta : Metadata) (prims : List Primitive),
      (infer metaTitle pageText meta prims).isSome = true)
    ∧ (∀ (metaTitle pageText : String) (meta : Metadata),
        ∃ d, infer metaTitle pageText meta [] = some d ∧ d.sections = []) := by
  constructor
  · intro metaTitle pageText meta prims
    unfold infer
    obtain ⟨s, hs⟩ := Option.isSome_iff_exists.mp (runPrims_isSome inv_initState prims)
    rw [hs]
    rfl
  · intro metaTitle pageText meta
    exact ⟨_, rfl, rfl⟩

/-- Claim C10: the invariant justifying the fallback double indexing
`sections[-1]["subsections"][-1]` holds on every reachable state: it holds
initially, it is preserved by every step, and whenever the attachment
helper runs with both pointers unset and a non-empty sections list the
most recently appended section has at least one subsection, so the
attachment never fails. -/
theorem orphan_fallback_safe :
    Inv initState
    ∧ (∀ (s : InferState) (p : Primitive) (s' : InferState),
        Inv s → processPrim s p = some s' → Inv s')
    ∧ (∀ (s : InferState) (c : ContentItem), Inv s → s.currentSection = none →
        s.currentSubsection = none → s.sections ≠ [] →
        (∃ lastSec, s.sections.getLast? = some lastSec ∧ lastSec.subsections ≠ []) ∧
          (addContent s c).isSome = true) := by
  refine ⟨inv_initState, fun s p s' hs h => inv_processPrim hs h,
    fun s c hs hcs hsub hne => ?_⟩
  obtain ⟨lastSec, hlast⟩ := Option.isSome_iff_exists.mp ((List.getLast?_isSome).mpr hne)
  have hlmem : lastSec ∈ s.sections := by
    rcases List.mem_getLast?_eq_getLast hlast with ⟨hh, heq⟩
    rw [heq]
    exact List.getLast_mem hh
  exact ⟨⟨lastSec, hlast, hs.1 hcs lastSec hlmem⟩, addContent_isSome hs c⟩

/-- Witness for C10: the fallback succeeds on the concrete reachable
orphan state (default section pair, both pointers unset). -/
theorem orphan_fallback_safe_witness :
    (addContent { sections := [{ title := "Contenu principal",
                                 subsections := [{ title := "Introduction", content := [] }] }],
                  currentSection := none, currentSubsection := none }
        (ContentItem.paragraph "x")).isSome = true := by
  have hinv : Inv { sections := [{ title := "Contenu principal",
                                   subsections := [{ title := "Introduction", content := [] }] }],
                    currentSection := none, currentSubsection := none } := by
    refine ⟨?_, ?_, ?_⟩
    · intro _ sec hsec
      simp only [List.mem_singleton] at hsec
      subst hsec
      simp
    · intro i hi
      exact Option.noConfusion hi
    · intro i j hij
      exact Option.noConfusion hij
  exact (orphan_fallback_safe.2.2
    { sections := [{ title := "Contenu principal",
                     subsections := [{ title := "Introduction", content := [] }] }],
      currentSection := none, currentSubsection := none }
    (ContentItem.paragraph "x") hinv rfl rfl (by simp)).2

/-- Claim C3 (amended): the attachment rule appends to the current
subsection when one is set; otherwise, under a current section with no
subsections yet it creates a single default subsection titled "Contenu"
(the source's French literal, which the claim renders as "Content") and
appends the item there, and under a current section that already has
subsections it appends to the most recent one. -/
theorem attachment_rule (s : InferState) (c : ContentItem) :
    (∀ i j, s.currentSubsection = some (i, j) →
      addContent s c = some { s with sections :=
        (modifyAt s.sections i (fun sec =>
          { sec with subsections :=
              (modifyAt sec.subsections j (fun sub => appendToSubsec sub c)) })) })
    ∧ (∀ i sec, s.currentSubsection = none → s.currentSection = some i →
        s.sections[i]? = some sec → sec.subsections = [] →
        ∃ s', addContent s c = some s' ∧
          s'.sections[i]? =
            some { sec with subsections := [{ title := "Contenu", content := [c] }] })
    ∧ (∀ i sec, s.currentSubsection = none → s.currentSection = some i →
        s.sections[i]? = some sec → sec.subsections ≠ [] →
        ∃ s', addContent s c = some s' ∧
          s'.sections[i]? = some { sec with subsections :=
            (modifyAt sec.subsections (sec.subsections.length - 1)
              (fun sub => appendToSubsec sub c)) }) := by
  refine ⟨?_, ?_, ?_⟩
  · intro i j hsub
    exact addContent_of_subsec s c hsub
  · intro i sec hsub hcs hget hempty
    refine ⟨_, addContent_of_section s c hsub hcs, ?_⟩
    show (modifyAt s.sections i (fun sec => appendToLastSubsec (ensureSubsec sec) c))[i]? = _
    rw [getElem?_modifyAt_self, hget]
    simp only [Option.map_some']
    congr 1
    simp [ensureSubsec, hempty, appendToLastSubsec, appendToSubsec, modifyAt]
  · intro i sec hsub hcs hget hne
    refine ⟨_, addContent_of_section s c hsub hcs, ?_⟩
    show (modifyAt s.sections i (fun sec => appendToLastSubsec (ensureSubsec sec) c))[i]? = _
    rw [getElem?_modifyAt_self, hget]
    simp only [Option.map_some']
    rw [ensureSubsec_of_ne_nil hne]
    rfl

/-- Counterexample to C3 as stated: on a concrete state the default
subsection created by the attachment rule is titled "Contenu", not
"Content". -/
theorem attachment_default_title_counterexample :
    addContent { sections := [{ title := "S", subsections := [] }],
                 currentSection := some 0, currentSubsection := none }
        (ContentItem.paragraph "x") =
      some { sections := [{ title := "S",
                            subsections := [{ title := "Contenu",
                                              content := [ContentItem.paragraph "x"] }] }],
             currentSection := some 0, currentSubsection := none }
    ∧ "Contenu" ≠ "Content" :=
  ⟨rfl, by decide⟩

/-- Witness for C3 at a concrete input: the default "Contenu" subsection
is created under a section without subsections. -/
theorem attachment_rule_witness :
    ∃ s', addContent { sections := [{ title := "S", subsections := [] }],
                       currentSection := some 0, currentSubsection := none }
        (ContentItem.paragraph "x") = some s' ∧
      s'.sections[0]? = some { title := "S",
                               subsections := [{ title := "Contenu",
                                                 content := [ContentItem.paragraph "x"] }] } :=
  (attachment_rule { sections := [{ title := "S", subsections := [] }],
                     currentSection := some 0, currentSubsection := none }
      (ContentItem.paragraph "x")).2.1 0 { title := "S", subsections := [] } rfl rfl rfl rfl

/-- Claim C4 (amended): a content item arriving with no current section
set lands in a default Section titled "Contenu principal" (the source's
French literal, which the claim renders as "Main content") with one
default Subsection "Introduction" when no section exists at all;
otherwise it is appended to the last subsection of the last section and
no second default pair is created.  On a concrete run, a Table before any
heading lands in the default pair and a second orphan item lands in the
same subsection. -/
theorem orphan_attachment (s : InferState) (c : ContentItem) :
    (s.currentSection = none → s.currentSubsection = none → s.sections = [] →
      addContent s c = some { s with sections :=
        [{ title := "Contenu principal",
           subsections := [{ title := "Introduction", content := [c] }] }] })
    ∧ (∀ lastSec, s.currentSection = none → s.currentSubsection = none →
        s.sections.getLast? = some lastSec → lastSec.subsections ≠ [] →
        addContent s c = some { s with sections :=
          (modifyAt s.sections (s.sections.length - 1)
            (fun sec => appendToLastSubsec sec c)) } ∧
        ∀ s', addContent s c = some s' → s'.sections.length = s.sections.length)
    ∧ runPrims initState
        [Primitive.table "T" ["h"] [["v"]], Primitive.textRun "orphan" 10 false false] =
        some { sections := [{ title := "Contenu principal",
                              subsections := [{ title := "Introduction",
                                                content := [ContentItem.table "T" ["h"] [["v"]],
                                                            ContentItem.paragraph "orphan"] }] }],
               currentSection := none, currentSubsection := none } := by
  refine ⟨?_, ?_, rfl⟩
  · intro hcs hsub hnil
    exact addContent_of_orphan_empty s c hsub hcs hnil
  · intro lastSec hcs hsub hlast hlne
    refine ⟨addContent_of_orphan_nonempty s c hsub hcs hlast hlne, ?_⟩
    intro s' h
    rw [addContent_of_orphan_nonempty s c hsub hcs hlast hlne] at h
    cases h
    exact length_modifyAt _ _ _

/-- Counterexample to C4 as stated: the auto-created default section on a
concrete orphan run is titled "Contenu principal", not "Main content". -/
theorem orphan_default_title_counterexample :
    (runPrims initState [Primitive.table "T" ["h"] [["v"]]]).map
        (fun s => s.sections.map Section.title) = some ["Contenu principal"]
    ∧ "Contenu principal" ≠ "Main content" :=
  ⟨rfl, by decide⟩

/-- Witness for C4 at a concrete input: an orphan image creates the
default pair. -/
theorem orphan_attachment_witness :
    addContent initState (ContentItem.image "img" "page 1") =
      some { sections := [{ title := "Contenu principal",
                            subsections := [{ title := "Introduction",
                                              content := [ContentItem.image "img" "page 1"] }] }],
             currentSection := none, currentSubsection := none } :=
  (orphan_attachment initState (ContentItem.image "img" "page 1")).1 rfl rfl rfl

/-- Claim C6: sections appear in the order their headings were
encountered (with at most one auto-created default section in front);
sections other than the last are never modified by later primitives (so
content after a new section heading never reaches a stale subsection);
and within the current section subsection titles are only ever extended
on the right, never reordered. -/
theorem section_order_monotone :
    (∀ (prims : List Primitive) (s' : InferState), runPrims initState prims = some s' →
      s'.sections.map Section.title = sectionTitlesOf prims ∨
        s'.sections.map Section.title = "Contenu principal" :: sectionTitlesOf prims)
    ∧ (∀ (s : InferState) (prims : List Primitive) (s' : InferState),
        Inv s → runPrims s prims = some s' →
        ∀ j, j + 1 < s.sections.length → s'.sections[j]? = s.sections[j]?)
    ∧ (∀ (s : InferState) (p : Primitive) (s' : InferState) (sec sec' : Section),
        Inv s → processPrim s p = some s' →
        s.sections[s.sections.length - 1]? = some sec →
        s'.sections[s.sections.length - 1]? = some sec' →
        ∃ t, sec.subsections.map Subsection.title ++ t =
          sec'.subsections.map Subsection.title) :=
  ⟨fun _ _ h => run_titles_init h,
   fun _ _ _ hs h => (run_frame hs h).2,
   fun _ _ _ _ _ hs h hsec hsec' => step_lastSec_subsec_titles hs h hsec hsec'⟩

/-- Witness for C6 at a concrete run: two section headings "A" then "B"
yield section titles in encounter order. -/
theorem section_order_monotone_witness :
    ({ sections := [{ title := "A", subsections := [] }, { title := "B", subsections := [] }],
       currentSection := some 1, currentSubsection := none } : InferState).sections.map
        Section.title =
      sectionTitlesOf [Primitive.textRun "A" 18 false false, Primitive.textRun "B" 20 false false]
    ∨ ({ sections := [{ title := "A", subsections := [] }, { title := "B", subsections := [] }],
         currentSection := some 1, currentSubsection := none } : InferState).sections.map
          Section.title =
        "Contenu principal" ::
          sectionTitlesOf [Primitive.textRun "A" 18 false false,
            Primitive.textRun "B" 20 false false] :=
  section_order_monotone.1
    [Primitive.textRun "A" 18 false false, Primitive.textRun "B" 20 false false]
    { sections := [{ title := "A", subsections := [] }, { title := "B", subsections := [] }],
      currentSection := some 1, currentSubsection := none } rfl

/-- Claim C7 (amended): the document title is the metadata title when
non-empty; otherwise it is the first line of the first 100 characters of
the first page's text; when there is no text at all it is the fixed
placeholder, which in the source is "Document sans titre" (the claim
renders it "Untitled document"). -/
theorem title_resolution (metaTitle pageText : String) :
    (metaTitle ≠ "" → resolveTitle metaTitle pageText = metaTitle)
    ∧ (metaTitle = "" → pageText ≠ "" →
        resolveTitle metaTitle pageText = firstLine (take100 pageText))
    ∧ (metaTitle = "" → pageText = "" →
        resolveTitle metaTitle pageText = "Document sans titre")
    ∧ resolveTitle "" "Hello World\nSecond line" = "Hello World" := by
  refine ⟨?_, ?_, ?_, rfl⟩
  · intro h
    simp [resolveTitle, h]
  · intro hm hp
    have hne : take100 pageText ≠ "" := by
      intro hc
      apply hp
      unfold take100 at hc
      have : pageText.data.take 100 = [] := congrArg String.data hc
      rcases List.take_eq_nil_iff.mp this with h100 | hdata
      · cases h100
      · cases pageText with
        | mk l => simp only at hdata; rw [hdata]
    simp [resolveTitle, hm, hne]
  · intro hm hp
    subst hp
    simp [resolveTitle, hm, take100]

/-- Counterexample to C7 as stated: with no metadata title and no text,
the title is "Document sans titre", not "Untitled document". -/
theorem title_placeholder_counterexample :
    resolveTitle "" "" = "Document sans titre"
    ∧ "Document sans titre" ≠ "Untitled document" :=
  ⟨rfl, by decide⟩

/-- Witness for C7 at concrete inputs: metadata title wins when present;
otherwise the first line of the page text is used. -/
theorem title_resolution_witness :
    resolveTitle "Meta" "Page text" = "Meta" ∧
      resolveTitle "" "Hello\nWorld" = firstLine (take100 "Hello\nWorld") :=
  ⟨(title_resolution "Meta" "Page text").1 (by decide),
   (title_resolution "" "Hello\nWorld").2.1 rfl (by decide)⟩

/-! ### The persisted JSON form and its round trip (claim C9)

The export layer serialises the document dict with `json.dumps`; the
persisted shape is exactly the dict structure the engine builds (keys in
insertion order).  We model the JSON value space, the serialiser from the
tree shape built by the engine, and a parser for that shape.  The repo
contains no re-open code, so the parser is modelled from the spec's
description of the persisted form. -/

/-- A JSON value: string, number, array or object (fields in order). -/
inductive Json where
  | str (s : String)
  | num (n : Nat)
  | arr (elems : List Json)
  | obj (fields : List (String × Json))

/-- Serialise one content item: a paragraph is a plain string, a table an
object with `type`/`caption`/`headers`/`rows`, an image an object with an
`image` key holding `description`/`position`. -/
def encodeContent : ContentItem → Json
  | .paragraph text => .str text
  | .table caption headers rows =>
      .obj [("type", .str "table"), ("caption", .str caption),
            ("headers", .arr (headers.map .str)),
            ("rows", .arr (rows.map (fun row => .arr (row.map .str))))]
  | .image description position =>
      .obj [("image", .obj [("description", .str description),
                            ("position", .str position)])]

/-- Serialise a subsection: `{title, content}`. -/
def encodeSubsection (sub : Subsection) : Json :=
  .obj [("title", .str sub.title), ("content", .arr (sub.content.map encodeContent))]

/-- Serialise a section: `{title, subsections}`. -/
def encodeSection (sec : Section) : Json :=
  .obj [("title", .str sec.title),
        ("subsections", .arr (sec.subsections.map encodeSubsection))]

/-- Serialise the metadata block:
`{num_pages, author, subject, extraction_date, extraction_method}`. -/
def encodeMetadata (m : Metadata) : Json :=
  .obj [("num_pages", .num m.num_pages), ("author", .str m.author),
        ("subject", .str m.subject), ("extraction_date", .str m.extraction_date),
        ("extraction_method", .str m.extraction_method)]

/-- Serialise the whole document: `{title, metadata, sections}`. -/
def encodeDocument (d : Document) : Json :=
  .obj [("title", .str d.title), ("metadata", encodeMetadata d.metadata),
        ("sections", .arr (d.sections.map encodeSection))]

/-- Modelled from the spec: parse a JSON string value (part of the
re-open workflow, which has no code in the repository). -/
def decodeStr : Json → Option String
  | .str s => some s
  | _ => none

/-- Modelled from the spec: parse a list of JSON strings. -/
def decodeStrList : List Json → Option (List String)
  | [] => some []
  | j :: rest =>
    match decodeStr j, decodeStrList rest with
    | some s, some t => some (s :: t)
    | _, _ => none

/-- Modelled from the spec: parse table rows (arrays of arrays of strings). -/
def decodeRows : List Json → Option (List (List String))
  | [] => some []
  | .arr cells :: rest =>
    match decodeStrList cells, decodeRows rest with
    | some r, some t => some (r :: t)
    | _, _ => none
  | _ => none

/-- Modelled from the spec: parse one content entry of the persisted
form — a plain text value, a `type: "table"` object, or an object with an
`image` key. -/
def decodeContent : Json → Option ContentItem
  | .str text => some (.paragraph text)
  | .obj [("type", .str "table"), ("caption", .str caption),
          ("headers", .arr headers), ("rows", .arr rows)] =>
    match decodeStrList headers, decodeRows rows with
    | some h, some r => some (.table caption h r)
    | _, _ => none
  | .obj [("image", .obj [("description", .str description),
                          ("position", .str position)])] =>
      some (.image description position)
  | _ => none

/-- Modelled from the spec: parse a list of content entries. -/
def decodeContentList : List Json → Option (List ContentItem)
  | [] => some []
  | j :: rest =>
    match decodeContent j, decodeContentList rest with
    | some c, some t => some (c :: t)
    | _, _ => none

/-- Modelled from the spec: parse a subsection `{title, content}`. -/
def decodeSubsection : Json → Option Subsection
  | .obj [("title", .str title), ("content", .arr content)] =>
    match decodeContentList content with
    | some cs => some { title := title, content := cs }
    | none => none
  | _ => none

/-- Modelled from the spec: parse a list of subsections. -/
def decodeSubsectionList : List Json → Option (List Subsection)
  | [] => some []
  | j :: rest =>
    match decodeSubsection j, decodeSubsectionList rest with
    | some sub, some t => some (sub :: t)
    | _, _ => none

/-- Modelled from the spec: parse a section `{title, subsections}`. -/
def decodeSection : Json → Option Section
  | .obj [("title", .str title), ("subsections", .arr subs)] =>
    match decodeSubsectionList subs with
    | some ss => some { title := title, subsections := ss }
    | none => none
  | _ => none

/-- Modelled from the spec: parse a list of sections. -/
def decodeSectionList : List Json → Option (List Section)
  | [] => some []
  | j :: rest =>
    match decodeSection j, decodeSectionList rest with
    | some sec, some t => some (sec :: t)
    | _, _ => none

/-- Modelled from the spec: parse the metadata block. -/
def decodeMetadata : Json → Option Metadata
  | .obj [("num_pages", .num num_pages), ("author", .str author),
          ("subject", .str subject), ("extraction_date", .str extraction_date),
          ("extraction_method", .str extraction_method)] =>
      some { num_pages := num_pages, author := author, subject := subject,
             extraction_date := extraction_date, extraction_method := extraction_method }
  | _ => none

/-- Modelled from the spec: parse the whole persisted document
`{title, metadata, sections}`. -/
def decodeDocument : Json → Option Document
  | .obj [("title", .str title), ("metadata", meta), ("sections", .arr secs)] =>
    match decodeMetadata meta, decodeSectionList secs with
    | some m, some ss => some { title := title, metadata := m, sections := ss }
    | _, _ => none
  | _ => none

theorem decodeStrList_encode (l : List String) :
    decodeStrList (l.map Json.str) = some l := by
  induction l with
  | nil => rfl
  | cons a t ih => simp [decodeStrList, decodeStr, ih]

theorem decodeRows_encode (l : List (List String)) :
    decodeRows (l.map (fun row => Json.arr (row.map Json.str))) = some l := by
  induction l with
  | nil => rfl
  | cons a t ih => simp [decodeRows, decodeStrList_encode, ih]

theorem decodeContent_encode (c : ContentItem) :
    decodeContent (encodeContent c) = some c := by
  cases c with
  | paragraph text => rfl
  | table caption headers rows =>
    simp [encodeContent, decodeContent, decodeStrList_encode, decodeRows_encode]
  | image description position => rfl

theorem decodeContentList_encode (l : List ContentItem) :
    decodeContentList (l.map encodeContent) = some l := by
  induction l with
  | nil => rfl
  | cons a t ih => simp [decodeContentList, decodeContent_encode, ih]

theorem decodeSubsection_encode (sub : Subsection) :
    decodeSubsection (encodeSubsection sub) = some sub := by
  simp [encodeSubsection, decodeSubsection, decodeContentList_encode]

theorem decodeSubsectionList_encode (l : List Subsection) :
    decodeSubsectionList (l.map encodeSubsection) = some l := by
  induction l with
  | nil => rfl
  | cons a t ih => simp [decodeSubsectionList, decodeSubsection_encode, ih]

theorem decodeSection_encode (sec : Section) :
    decodeSection (encodeSection sec) = some sec := by
  simp [encodeSection, decodeSection, decodeSubsectionList_encode]

theorem decodeSectionList_encode (l : List Section) :
    decodeSectionList (l.map encodeSection) = some l := by
  induction l with
  | nil => rfl
  | cons a t ih => simp [decodeSectionList, decodeSection_encode, ih]

/-- Claim C9: serialising a Document to the persisted JSON form and
parsing it back yields a structurally equal tree — content order, nesting
and all field values are preserved. -/
theorem document_json_round_trip (d : Document) :
    decodeDocument (encodeDocument d) = some d := by
  obtain ⟨title, meta, sections⟩ := d
  obtain ⟨num_pages, author, subject, extraction_date, extraction_method⟩ := meta
  simp [encodeDocument, decodeDocument, encodeMetadata, decodeMetadata,
    decodeSectionList_encode]

end PDFStruct
